import Mathlib

/-
Verification of the commit-graph layout and flow-grouping engine
(src/ui/src/lib/components/commits/graphEngine.ts).

The engine is shallowly embedded: TypeScript objects become structures,
JS Maps become functions to Option, loops that push onto arrays become
list concatenation, and the two ancestry while-loops become fuel-bounded
recursions whose fuel matches the loop guards of the source
(the fuel-stability theorems show the guards, not the fuel, end the walks).
Dates are embedded as Int (JS numbers holding integral timestamps).
The locale-sensitive name tie-break of the branch sort (localeCompare)
is modelled as code-point order; no verified statement depends on the
order of equal-priority branches.
-/

namespace GraphEngine

/-- Commit record as supplied to the engine (types/git.ts, CommitSummary). -/
structure CommitSummary where
  hash : String
  author : String
  message : String
  date : Int
  parents : List String
deriving DecidableEq

/-- Branch record as supplied to the engine (types/git.ts, BranchInfo). -/
structure BranchInfo where
  name : String
  isCurrent : Bool
  isRemote : Bool
  targetHash : Option String
deriving DecidableEq

def ROW_HEIGHT : Nat := 46

def LANE_WIDTH : Nat := 14

def LANE_PADDING : Nat := 8

def MAX_GRAPH_WIDTH : Nat := 196

def FLOW_WINDOW_MS : Int := 1000 * 60 * 60 * 6

def FLOW_MAX_GROUP_SIZE : Nat := 8

inductive RelationKind where
  | merge
  | revert
  | cherryPick
deriving DecidableEq

structure FlowRelation where
  kind : RelationKind
  label : String
  count : Nat
deriving DecidableEq

structure FlowGroup where
  id : String
  lane : Nat
  branchLabel : String
  typeLabel : String
  startedAt : Int
  endedAt : Int
  commits : List CommitSummary
  relations : List FlowRelation
deriving DecidableEq

/-! Message classification (normalizedType / relationOf).
The JS regexes are embedded as character-list scanners:
`/^([a-z]+)(\([^)]+\))?!?:/i`, `/^merge\b/i`, `/^revert\b/i`,
`/cherry[\s-]?pick/i`.  Without the u flag these regexes are
ASCII-case-insensitive and \w is [A-Za-z0-9_], \s the JS space class. -/

def isAsciiAlpha (c : Char) : Bool :=
  ('a' ≤ c && c ≤ 'z') || ('A' ≤ c && c ≤ 'Z')

def isWordChar (c : Char) : Bool :=
  isAsciiAlpha c || c.isDigit || c = '_'

def isJsSpace (c : Char) : Bool :=
  c.toNat = 9 || c.toNat = 10 || c.toNat = 11 || c.toNat = 12 || c.toNat = 13 ||
  c.toNat = 32 || c.toNat = 0xa0 || c.toNat = 0x1680 ||
  (0x2000 ≤ c.toNat && c.toNat ≤ 0x200a) ||
  c.toNat = 0x2028 || c.toNat = 0x2029 || c.toNat = 0x202f || c.toNat = 0x205f ||
  c.toNat = 0x3000 || c.toNat = 0xfeff

/-- Longest leading run of ASCII letters and the remainder (the `[a-z]+` part). -/
def spanAlpha : List Char → List Char × List Char
  | [] => ([], [])
  | c :: cs =>
    if isAsciiAlpha c then
      let p := spanAlpha cs
      (c :: p.1, p.2)
    else ([], c :: cs)

/-- Leading run of characters other than a closing parenthesis. -/
def spanNotClose : List Char → List Char × List Char
  | [] => ([], [])
  | c :: cs =>
    if c = ')' then ([], c :: cs)
    else
      let p := spanNotClose cs
      (c :: p.1, p.2)

/-- The optional scope group of the conventional-commit regex. -/
def parseScope (cs : List Char) : Option (List Char) :=
  match cs with
  | '(' :: rest =>
    match spanNotClose rest with
    | ([], _) => none
    | (_, ')' :: tail) => some tail
    | (_, _) => none
  | _ => none

/-- Matcher for the anchored conventional-commit regex; returns the type token. -/
def matchConventional (cs : List Char) : Option (List Char) :=
  match spanAlpha cs with
  | ([], _) => none
  | (letters, rest) =>
    let rest1 := match parseScope rest with
      | some tail => tail
      | none => rest
    let rest2 := match rest1 with
      | '!' :: tail => tail
      | _ => rest1
    match rest2 with
    | ':' :: _ => some letters
    | _ => none

/-- Case-insensitive (ASCII) match of a lowercase pattern at the head;
returns the remainder on success. -/
def ciMatch : List Char → List Char → Option (List Char)
  | [], cs => some cs
  | _ :: _, [] => none
  | p :: ps, c :: cs => if c.toLower = p then ciMatch ps cs else none

/-- Anchored case-insensitive word match, the `/^word\b/i` pattern. -/
def startsWordCI (pat : List Char) (cs : List Char) : Bool :=
  match ciMatch pat cs with
  | none => false
  | some [] => true
  | some (c :: _) => !isWordChar c

/-- Match of `cherry[\s-]?pick` (case-insensitive) at the head of the list. -/
def cherryAt (cs : List Char) : Bool :=
  match ciMatch ['c', 'h', 'e', 'r', 'r', 'y'] cs with
  | none => false
  | some rest =>
    (ciMatch ['p', 'i', 'c', 'k'] rest).isSome ||
    (match rest with
     | sep :: rest2 => (isJsSpace sep || sep = '-') && (ciMatch ['p', 'i', 'c', 'k'] rest2).isSome
     | [] => false)

/-- Unanchored containment of the cherry-pick pattern. -/
def containsCherryPick : List Char → Bool
  | [] => false
  | c :: cs => cherryAt (c :: cs) || containsCherryPick cs

/-- normalizedType from graphEngine.ts. -/
def normalizedType (message : String) : String :=
  match matchConventional message.data with
  | some tok => String.mk (tok.map Char.toLower)
  | none =>
    if startsWordCI ['m', 'e', 'r', 'g', 'e'] message.data then "merge"
    else if startsWordCI ['r', 'e', 'v', 'e', 'r', 't'] message.data then "revert"
    else if containsCherryPick message.data then "cherry-pick"
    else "commit"

/-- relationOf from graphEngine.ts. -/
def relationOf (message : String) : Option (RelationKind × String) :=
  if startsWordCI ['m', 'e', 'r', 'g', 'e'] message.data then some (RelationKind.merge, "Merge")
  else if startsWordCI ['r', 'e', 'v', 'e', 'r', 't'] message.data then some (RelationKind.revert, "Revert")
  else if containsCherryPick message.data then some (RelationKind.cherryPick, "Cherry-pick")
  else none

/-! Graph layout (buildGraph).  The JS Maps hashToRow and commitByHash are
built by forEach set calls, so on duplicate hashes the last write wins; the
embeddings below return the match nearest the end of the list. -/

structure GraphEdge where
  fromRow : Nat
  toRow : Nat
  fromLane : Nat
  toLane : Nat
deriving DecidableEq

structure GraphLayout where
  laneByRow : List Nat
  edges : List GraphEdge
  laneCount : Nat
  laneStep : Nat
  width : Nat
  height : Nat
deriving DecidableEq

/-- Helper for hashToRow: index of the last commit with the given hash,
offset by the index of the sublist head. -/
def hashToRowAux (h : String) : List CommitSummary → Nat → Option Nat
  | [], _ => none
  | c :: cs, i =>
    match hashToRowAux h cs (i + 1) with
    | some r => some r
    | none => if c.hash = h then some i else none

/-- The hashToRow map of buildGraph (last write wins). -/
def hashToRow (items : List CommitSummary) (h : String) : Option Nat :=
  hashToRowAux h items 0

/-- The commitByHash map of buildGraph (last write wins). -/
def commitByHash (h : String) : List CommitSummary → Option CommitSummary
  | [] => none
  | c :: cs =>
    match commitByHash h cs with
    | some c2 => some c2
    | none => if c.hash = h then some c else none

/-- The first parent of a commit that is present in the visible set. -/
def firstVisibleParent (items : List CommitSummary) (c : CommitSummary) : Option String :=
  c.parents.find? (fun p => (hashToRow items p).isSome)

/-- The children pushed for a given parent hash while scanning the commits
(childHashesByParent before sorting). -/
def childrenOf (items : List CommitSummary) (p : String) : List String :=
  items.foldl (fun acc c =>
    c.parents.foldl (fun acc2 q =>
      if q = p && (hashToRow items q).isSome then acc2 ++ [c.hash] else acc2) acc) []

/-- Sort key used for the children lists: the row, with MAX_SAFE_INTEGER for
a hash with no row. -/
def rowKey (items : List CommitSummary) (h : String) : Nat :=
  (hashToRow items h).getD 9007199254740991

/-- Insertion step of the by-row sort of a children list. -/
def insertChild (items : List CommitSummary) (x : String) : List String → List String
  | [] => [x]
  | y :: ys =>
    if rowKey items x ≤ rowKey items y then x :: y :: ys
    else y :: insertChild items x ys

/-- Ascending-row sort of a children list.  Ties can only arise between equal
hashes, so the exact tie order of the JS sort is immaterial. -/
def sortChildren (items : List CommitSummary) : List String → List String
  | [] => []
  | x :: xs => insertChild items x (sortChildren items xs)

def sortedChildrenOf (items : List CommitSummary) (p : String) : List String :=
  sortChildren items (childrenOf items p)

/-- The mainline walk of buildGraph: follow the first visible parent from the
newest commit, stopping on a falsy cursor, a repeated hash, a missing commit
or no visible parent.  The fuel only bounds the recursion; the stability
theorem for C9 shows the guards themselves end the walk. -/
def mainlineAux (items : List CommitSummary) : Nat → String → List String → List String
  | 0, _, acc => acc
  | fuel + 1, cursor, acc =>
    if cursor = "" || acc.contains cursor then acc
    else
      let acc2 := acc ++ [cursor]
      match commitByHash cursor items with
      | none => acc2
      | some commit =>
        match firstVisibleParent items commit with
        | none => acc2
        | some next => mainlineAux items fuel next acc2

/-- The mainline membership set of buildGraph, as the list of visited hashes. -/
def mainlineOf (items : List CommitSummary) : List String :=
  match items with
  | [] => []
  | c0 :: _ => mainlineAux items (items.length + 1) c0.hash []

/-- primaryChildByParent of buildGraph: prefer a mainline child, else the
child whose own first parent is this hash, else the first child by row. -/
def primaryChildOf (items : List CommitSummary) (mainlineL : List String) (p : String) :
    Option String :=
  let children := sortedChildrenOf items p
  match children.find? (fun ch => mainlineL.contains ch) with
  | some ch => some ch
  | none =>
    match children.find? (fun ch =>
        match commitByHash ch items with
        | some c => c.parents.head? = some p
        | none => false) with
    | some ch => some ch
    | none => children.head?

/-- Mutable state of the lane-assignment loop of buildGraph.  laneByRow is
prepended per row, so after the oldest-to-newest walk it is in row order. -/
structure LaneState where
  laneByHash : String → Option Nat
  laneByRow : List Nat
  laneCount : Nat
  nextLane : Nat

/-- allocateLane of buildGraph. -/
def allocateLane (s : LaneState) : Nat × LaneState :=
  (s.nextLane, { s with nextLane := s.nextLane + 1, laneCount := max s.laneCount (s.nextLane + 1) })

/-- One iteration of the lane-assignment loop (rows walked oldest to newest). -/
def laneAssignStep (items : List CommitSummary) (mainlineL : List String)
    (s : LaneState) (commit : CommitSummary) : LaneState :=
  let pick : Nat × LaneState :=
    if mainlineL.contains commit.hash then (0, s)
    else
      match firstVisibleParent items commit with
      | some fp =>
        let parentLane := (s.laneByHash fp).getD 0
        if primaryChildOf items mainlineL fp = some commit.hash && parentLane ≠ 0 then
          (parentLane, s)
        else allocateLane s
      | none => allocateLane s
  { laneByHash := fun h => if h = commit.hash then some pick.1 else pick.2.laneByHash h
    laneByRow := pick.1 :: pick.2.laneByRow
    laneCount := max pick.2.laneCount (pick.1 + 1)
    nextLane := pick.2.nextLane }

/-- The lane-assignment loop of buildGraph over rows items.length-1 down to 0. -/
def laneState (items : List CommitSummary) : LaneState :=
  items.reverse.foldl (laneAssignStep items (mainlineOf items))
    { laneByHash := fun _ => none, laneByRow := [], laneCount := 1, nextLane := 1 }

/-- The edges pushed for one parent entry of the commit at the given row. -/
def edgeCandidate (items : List CommitSummary) (laneByHash : String → Option Nat)
    (row fromLane : Nat) (parent : String) : List GraphEdge :=
  match hashToRow items parent with
  | none => []
  | some parentRow =>
    if parentRow ≤ row then []
    else [⟨row, parentRow, fromLane, (laneByHash parent).getD fromLane⟩]

/-- The edge-emission loop of buildGraph; pushes are embedded as concatenation. -/
def edgesAux (items : List CommitSummary) (laneByHash : String → Option Nat)
    (laneByRow : List Nat) : Nat → List CommitSummary → List GraphEdge
  | _, [] => []
  | row, c :: rest =>
    (c.parents.map
      (edgeCandidate items laneByHash row ((laneByHash c.hash).getD (laneByRow.getD row 0)))).flatten
    ++ edgesAux items laneByHash laneByRow (row + 1) rest

def edgesOf (items : List CommitSummary) (laneByHash : String → Option Nat)
    (laneByRow : List Nat) : List GraphEdge :=
  edgesAux items laneByHash laneByRow 0 items

/-- buildGraph from graphEngine.ts. -/
def buildGraph (items : List CommitSummary) : GraphLayout :=
  let s := laneState items
  let laneCount := s.laneCount
  let step :=
    if laneCount ≤ 1 then LANE_WIDTH
    else min LANE_WIDTH (max 8 ((MAX_GRAPH_WIDTH - LANE_PADDING * 2 - LANE_WIDTH) / (laneCount - 1)))
  { laneByRow := s.laneByRow
    edges := edgesOf items s.laneByHash s.laneByRow
    laneCount := laneCount
    laneStep := step
    width := LANE_PADDING * 2 + (laneCount - 1) * step + LANE_WIDTH
    height := items.length * ROW_HEIGHT }

/-! Branch label resolution (buildFlowBranchLabelMap).  Branches are walked
in priority order (current, local, remote; name ties by localeCompare,
modelled as code-point order) and each walk follows first visible parents,
recording the best assignment per hash. -/

structure Assignment where
  label : String
  priority : Nat
  distance : Nat
deriving DecidableEq

/-- Priority of a branch: current 0, other local 1, remote 2. -/
def branchPriority (b : BranchInfo) : Nat :=
  if b.isCurrent then 0 else if b.isRemote then 2 else 1

/-- The replace call of the source: drop one anchored literal origin/ prefix. -/
def stripOrigin (name : String) : String :=
  match name.data with
  | 'o' :: 'r' :: 'i' :: 'g' :: 'i' :: 'n' :: '/' :: rest => String.mk rest
  | _ => name

/-- Display label of a branch: remote names lose the origin/ prefix. -/
def branchDisplayLabel (b : BranchInfo) : String :=
  if b.isRemote then stripOrigin b.name else b.name

/-- Code-point comparison of names, modelling the default localeCompare tie
break; no verified claim depends on the order of equal-priority branches. -/
def charListLE : List Char → List Char → Bool
  | [], _ => true
  | _ :: _, [] => false
  | a :: as, b :: bs => if a = b then charListLE as bs else decide (a < b)

/-- The sort comparator of buildFlowBranchLabelMap: priority, then name. -/
def branchLE (a b : BranchInfo) : Bool :=
  branchPriority a < branchPriority b ||
  (branchPriority a = branchPriority b && charListLE a.name.data b.name.data)

def insertBranch (x : BranchInfo) : List BranchInfo → List BranchInfo
  | [] => [x]
  | y :: ys => if branchLE x y then x :: y :: ys else y :: insertBranch x ys

/-- The sorted branch list of buildFlowBranchLabelMap. -/
def sortedBranches : List BranchInfo → List BranchInfo
  | [] => []
  | x :: xs => insertBranch x (sortedBranches xs)

/-- One assignment update of the branch walk: overwrite only when no entry
exists, the priority is strictly lower, or it ties with strictly smaller
distance. -/
def assignStep (label : String) (priority distance : Nat) (cursor : String)
    (asg : String → Option Assignment) : String → Option Assignment :=
  let write :=
    match asg cursor with
    | none => true
    | some e => priority < e.priority || (priority = e.priority && distance < e.distance)
  if write then fun h => if h = cursor then some ⟨label, priority, distance⟩ else asg h
  else asg

/-- The while-loop of buildFlowBranchLabelMap for one branch.  The loop exits
on a falsy cursor, a cursor outside the visible set, a repeated cursor, or a
distance beyond items.length + 8; the fuel only bounds the recursion and the
stability theorem for C9 shows the guards themselves end the walk. -/
def branchWalkAux (items : List CommitSummary) (label : String) (priority : Nat) :
    Nat → String → Nat → List String → (String → Option Assignment) →
    (String → Option Assignment)
  | 0, _, _, _, asg => asg
  | fuel + 1, cursor, distance, seen, asg =>
    if cursor = "" || (hashToRow items cursor).isNone || seen.contains cursor ||
        items.length + 8 < distance then
      asg
    else
      let asg2 := assignStep label priority distance cursor asg
      match commitByHash cursor items with
      | none => asg2
      | some c =>
        match firstVisibleParent items c with
        | none => asg2
        | some next =>
          branchWalkAux items label priority fuel next (distance + 1) (seen ++ [cursor]) asg2

/-- Processing of one branch of the sorted list; a falsy or invisible tip is
skipped. -/
def processBranch (items : List CommitSummary) (asg : String → Option Assignment)
    (b : BranchInfo) : String → Option Assignment :=
  match b.targetHash with
  | none => asg
  | some tip =>
    if tip = "" || (hashToRow items tip).isNone then asg
    else
      branchWalkAux items (branchDisplayLabel b) (branchPriority b)
        (items.length + 9) tip 0 [] asg

/-- buildFlowBranchLabelMap from graphEngine.ts, as a map to an optional label. -/
def buildFlowBranchLabelMap (items : List CommitSummary) (branchItems : List BranchInfo) :
    String → Option String :=
  fun h =>
    (((sortedBranches branchItems).foldl (processBranch items) (fun _ => none)) h).map
      Assignment.label

/-! Flow grouping (buildFlowGroups).  The JS scan keeps the open group as
the last array element and mutates it; the embedding keeps the group list
reversed (open group at the head) and reverses at the end. -/

/-- In-place bump of the first relation entry of the given kind, or push at the end. -/
def bumpRelation : List FlowRelation → RelationKind → String → List FlowRelation
  | [], k, l => [⟨k, l, 1⟩]
  | r :: rs, k, l =>
    if r.kind = k then { r with count := r.count + 1 } :: rs
    else r :: bumpRelation rs k l

/-- The group pushed when a commit cannot join the open group. -/
def startGroup (laneByHash : String → Option Nat) (branchLabel typeLabel : String)
    (relation : Option (RelationKind × String)) (commit : CommitSummary) : FlowGroup :=
  { id := commit.hash
    lane := (laneByHash commit.hash).getD 0
    branchLabel := branchLabel
    typeLabel := typeLabel
    startedAt := commit.date
    endedAt := commit.date
    commits := [commit]
    relations := match relation with
      | some (k, l) => [⟨k, l, 1⟩]
      | none => [] }

/-- The canAppend predicate of buildFlowGroups. -/
def canAppend (current : FlowGroup) (branchLabel typeLabel : String)
    (commit : CommitSummary) : Bool :=
  current.branchLabel = branchLabel &&
  current.typeLabel = typeLabel &&
  current.commits.length < FLOW_MAX_GROUP_SIZE &&
  |current.endedAt - commit.date| ≤ FLOW_WINDOW_MS

/-- The append branch of buildFlowGroups (push commit, move endedAt, track
startedAt as the maximum seen, merge the relation entry). -/
def appendToGroup (current : FlowGroup) (relation : Option (RelationKind × String))
    (commit : CommitSummary) : FlowGroup :=
  { current with
    commits := current.commits ++ [commit]
    endedAt := commit.date
    startedAt := max current.startedAt commit.date
    relations := match relation with
      | none => current.relations
      | some (k, l) => bumpRelation current.relations k l }

/-- One step of the buildFlowGroups scan on the reversed group list. -/
def flowStep (laneByHash : String → Option Nat) (resolveBranchLabel : CommitSummary → String)
    (acc : List FlowGroup) (commit : CommitSummary) : List FlowGroup :=
  let branchLabel := resolveBranchLabel commit
  let typeLabel := normalizedType commit.message
  let relation := relationOf commit.message
  match acc with
  | [] => [startGroup laneByHash branchLabel typeLabel relation commit]
  | current :: rest =>
    if canAppend current branchLabel typeLabel commit then
      appendToGroup current relation commit :: rest
    else
      startGroup laneByHash branchLabel typeLabel relation commit :: current :: rest

/-- buildFlowGroups from graphEngine.ts. -/
def buildFlowGroups (commits : List CommitSummary) (laneByHash : String → Option Nat)
    (resolveBranchLabel : CommitSummary → String) : List FlowGroup :=
  (commits.foldl (flowStep laneByHash resolveBranchLabel) []).reverse

/-- specCanAppend is modelled from the words of the spec, for comparison with
the canAppend predicate of the source: same branch label, same type label,
fewer than 8 commits in the open group, and a gap of at most 6 hours in
milliseconds between the endedAt of the open group and the commit date. -/
def specCanAppend (g : FlowGroup) (branchLabel typeLabel : String) (c : CommitSummary) : Prop :=
  g.branchLabel = branchLabel ∧ g.typeLabel = typeLabel ∧
  g.commits.length < 8 ∧ |g.endedAt - c.date| ≤ 6 * 60 * 60 * 1000

instance (g : FlowGroup) (bl tl : String) (c : CommitSummary) :
    Decidable (specCanAppend g bl tl c) := by
  unfold specCanAppend; infer_instance

theorem canAppend_iff_spec (g : FlowGroup) (bl tl : String) (c : CommitSummary) :
    canAppend g bl tl c = true ↔ specCanAppend g bl tl c := by
  simp only [canAppend, specCanAppend, FLOW_MAX_GROUP_SIZE, FLOW_WINDOW_MS,
    Bool.and_eq_true, decide_eq_true_eq]
  norm_num
  tauto

theorem flowStep_flatten (l : String → Option Nat) (r : CommitSummary → String)
    (acc : List FlowGroup) (c : CommitSummary) :
    ((flowStep l r acc c).reverse.map FlowGroup.commits).flatten
      = (acc.reverse.map FlowGroup.commits).flatten ++ [c] := by
  cases acc with
  | nil => simp [flowStep, startGroup]
  | cons g gs =>
    cases h : canAppend g (r c) (normalizedType c.message) c with
    | true => simp [flowStep, h, appendToGroup]
    | false => simp [flowStep, h, startGroup]

theorem foldl_flow_flatten (l : String → Option Nat) (r : CommitSummary → String)
    (cs : List CommitSummary) (acc : List FlowGroup) :
    ((cs.foldl (flowStep l r) acc).reverse.map FlowGroup.commits).flatten
      = (acc.reverse.map FlowGroup.commits).flatten ++ cs := by
  induction cs generalizing acc with
  | nil => simp
  | cons c cs ih =>
    rw [List.foldl_cons, ih, flowStep_flatten]
    simp

theorem flowStep_bound (l : String → Option Nat) (r : CommitSummary → String)
    (acc : List FlowGroup) (c : CommitSummary)
    (h : ∀ g ∈ acc, g.commits.length ≤ FLOW_MAX_GROUP_SIZE) :
    ∀ g ∈ flowStep l r acc c, g.commits.length ≤ FLOW_MAX_GROUP_SIZE := by
  cases acc with
  | nil =>
    simp [flowStep, startGroup, FLOW_MAX_GROUP_SIZE]
  | cons g0 gs =>
    cases hc : canAppend g0 (r c) (normalizedType c.message) c with
    | true =>
      have hlt : g0.commits.length < FLOW_MAX_GROUP_SIZE := by
        have := (canAppend_iff_spec g0 (r c) (normalizedType c.message) c).mp hc
        simpa [FLOW_MAX_GROUP_SIZE] using this.2.2.1
      intro g hg
      simp only [flowStep, hc] at hg
      rcases List.mem_cons.mp hg with rfl | hg
      · simpa [appendToGroup] using hlt
      · exact h g (List.mem_cons_of_mem _ hg)
    | false =>
      intro g hg
      simp only [flowStep, hc] at hg
      rcases List.mem_cons.mp hg with rfl | hg
      · simp [startGroup, FLOW_MAX_GROUP_SIZE]
      · exact h g hg

theorem foldl_flow_bound (l : String → Option Nat) (r : CommitSummary → String)
    (cs : List CommitSummary) (acc : List FlowGroup)
    (h : ∀ g ∈ acc, g.commits.length ≤ FLOW_MAX_GROUP_SIZE) :
    ∀ g ∈ cs.foldl (flowStep l r) acc, g.commits.length ≤ FLOW_MAX_GROUP_SIZE := by
  induction cs generalizing acc with
  | nil => simpa using h
  | cons c cs ih => exact ih _ (flowStep_bound l r acc c h)

theorem buildFlowGroups_snoc (l : String → Option Nat) (r : CommitSummary → String)
    (cs : List CommitSummary) (c : CommitSummary) (gs0 : List FlowGroup) (g : FlowGroup)
    (h : buildFlowGroups cs l r = gs0 ++ [g]) :
    buildFlowGroups (cs ++ [c]) l r =
      if canAppend g (r c) (normalizedType c.message) c then
        gs0 ++ [appendToGroup g (relationOf c.message) c]
      else
        gs0 ++ [g, startGroup l (r c) (normalizedType c.message) (relationOf c.message) c] := by
  have h' : cs.foldl (flowStep l r) [] = g :: gs0.reverse := by
    have h2 := congrArg List.reverse h
    simpa [buildFlowGroups] using h2
  rw [buildFlowGroups, List.foldl_append, h']
  cases hc : canAppend g (r c) (normalizedType c.message) c with
  | true => simp [flowStep, hc]
  | false => simp [flowStep, hc]

/-- C1: flow grouping partitions the input exactly: for every commit sequence,
any laneByHash map and any branch-label resolver, concatenating the commits
fields of the groups returned by buildFlowGroups, in group order, reproduces
the input commit sequence with no loss, duplication or reordering, and no
returned group holds more than 8 commits. -/
theorem C1_flow_partition (commits : List CommitSummary) (laneByHash : String → Option Nat)
    (resolve : CommitSummary → String) :
    ((buildFlowGroups commits laneByHash resolve).map FlowGroup.commits).flatten = commits ∧
    (buildFlowGroups commits laneByHash resolve).all
      (fun g => decide (g.commits.length ≤ FLOW_MAX_GROUP_SIZE)) = true := by
  constructor
  · have h := foldl_flow_flatten laneByHash resolve commits []
    simpa [buildFlowGroups] using h
  · rw [List.all_eq_true]
    intro g hg
    rw [decide_eq_true_eq]
    refine foldl_flow_bound laneByHash resolve commits [] (by simp) g ?_
    simpa [buildFlowGroups] using hg

/-- C5: a commit is appended to the currently open group iff branch label and
type label agree, the open group has fewer than 8 commits, and the absolute
gap between the open group endedAt and the commit date is at most 6 hours in
milliseconds; otherwise a new group starts whose id is the commit hash and
whose lane is the commit lane.  Two consecutive same-type same-label commits
10 minutes apart share one group; the same pair 8 hours apart gives two. -/
theorem C5_append_or_start :
    (∀ (l : String → Option Nat) (r : CommitSummary → String) (cs : List CommitSummary)
       (c : CommitSummary) (gs0 : List FlowGroup) (g : FlowGroup),
       buildFlowGroups cs l r = gs0 ++ [g] →
       buildFlowGroups (cs ++ [c]) l r =
         if specCanAppend g (r c) (normalizedType c.message) c then
           gs0 ++ [appendToGroup g (relationOf c.message) c]
         else
           gs0 ++ [g, startGroup l (r c) (normalizedType c.message) (relationOf c.message) c]) ∧
    (∀ (l : String → Option Nat) (bl tl : String) (rel : Option (RelationKind × String))
       (c : CommitSummary),
       (startGroup l bl tl rel c).id = c.hash ∧
       (startGroup l bl tl rel c).lane = (l c.hash).getD 0) ∧
    (buildFlowGroups
       [⟨"a", "", "feat: a", 0, []⟩, ⟨"b", "", "feat: b", 600000, []⟩]
       (fun _ => none) (fun _ => "main")).length = 1 ∧
    (buildFlowGroups
       [⟨"a", "", "feat: a", 0, []⟩, ⟨"b", "", "feat: b", 28800000, []⟩]
       (fun _ => none) (fun _ => "main")).length = 2 := by
  refine ⟨?_, ?_, by decide, by decide⟩
  · intro l r cs c gs0 g h
    rw [buildFlowGroups_snoc l r cs c gs0 g h]
    by_cases hc : specCanAppend g (r c) (normalizedType c.message) c
    · rw [if_pos hc, if_pos ((canAppend_iff_spec _ _ _ _).mpr hc)]
    · rw [if_neg hc, if_neg (fun hb => hc ((canAppend_iff_spec _ _ _ _).mp hb))]
  · intro l bl tl rel c
    exact ⟨rfl, rfl⟩

/-- Witness for C5: the append rule applied at a concrete two-commit input
10 minutes apart, produced by one group. -/
theorem C5_append_or_start_witness :
    buildFlowGroups ([⟨"a", "", "feat: a", 0, []⟩] ++ [⟨"b", "", "feat: b", 600000, []⟩])
        (fun _ => none) (fun _ => "main") =
      [⟨"a", 0, "main", "feat", 600000, 600000,
        [⟨"a", "", "feat: a", 0, []⟩, ⟨"b", "", "feat: b", 600000, []⟩], []⟩] := by
  have h := C5_append_or_start.1 (fun _ => none) (fun _ => "main")
    [⟨"a", "", "feat: a", 0, []⟩] ⟨"b", "", "feat: b", 600000, []⟩ []
    ⟨"a", 0, "main", "feat", 0, 0, [⟨"a", "", "feat: a", 0, []⟩], []⟩ (by decide)
  rw [h]
  decide

/-- C8: appending a commit to an open group moves endedAt to the commit date
and startedAt to the maximum date seen in the group; a message beginning with
the word Merge is classified with type label merge and contributes a merge
relation entry of count 1, and a second merge commit appended to the same
group bumps that count to 2 instead of adding a duplicate entry. -/
theorem C8_append_and_merge_relations :
    (∀ (l : String → Option Nat) (r : CommitSummary → String) (cs : List CommitSummary)
       (c : CommitSummary) (gs0 : List FlowGroup) (g : FlowGroup),
       buildFlowGroups cs l r = gs0 ++ [g] →
       canAppend g (r c) (normalizedType c.message) c = true →
       buildFlowGroups (cs ++ [c]) l r = gs0 ++ [appendToGroup g (relationOf c.message) c] ∧
       (appendToGroup g (relationOf c.message) c).endedAt = c.date ∧
       (appendToGroup g (relationOf c.message) c).startedAt = max g.startedAt c.date) ∧
    (∀ rest : List Char,
       normalizedType (String.mk ('M' :: 'e' :: 'r' :: 'g' :: 'e' :: ' ' :: rest)) = "merge" ∧
       relationOf (String.mk ('M' :: 'e' :: 'r' :: 'g' :: 'e' :: ' ' :: rest)) =
         some (RelationKind.merge, "Merge")) ∧
    (buildFlowGroups
       [⟨"m1", "", "Merge branch 'a'", 0, []⟩, ⟨"m2", "", "Merge branch 'b'", 60000, []⟩]
       (fun _ => none) (fun _ => "main")).map FlowGroup.relations =
      [[⟨RelationKind.merge, "Merge", 2⟩]] := by
  refine ⟨?_, ?_, by decide⟩
  · intro l r cs c gs0 g h hc
    refine ⟨?_, rfl, rfl⟩
    rw [buildFlowGroups_snoc l r cs c gs0 g h, if_pos hc]
  · intro rest
    constructor
    · simp +decide [normalizedType, matchConventional, spanAlpha, parseScope, startsWordCI,
        ciMatch, isAsciiAlpha, isWordChar]
    · simp +decide [relationOf, startsWordCI, ciMatch, isWordChar]

/-- C2: diamond-merge scenario.  For the newest-first input C0(parents C1,C2),
C1(parents C3), C2(parents C3), C3(no parents), buildGraph computes mainline
C0, C1, C3 via the first-parent walk, laneByRow 0,0,1,0, and edges including
rows 0 to 1 on lanes 0 to 0, rows 0 to 2 on lanes 0 to 1, rows 1 to 3 on
lanes 0 to 0, and rows 2 to 3 on lanes 1 to 0. -/
theorem C2_diamond_scenario :
    mainlineOf [⟨"C0", "", "", 0, ["C1", "C2"]⟩, ⟨"C1", "", "", 0, ["C3"]⟩,
        ⟨"C2", "", "", 0, ["C3"]⟩, ⟨"C3", "", "", 0, []⟩] = ["C0", "C1", "C3"] ∧
    (buildGraph [⟨"C0", "", "", 0, ["C1", "C2"]⟩, ⟨"C1", "", "", 0, ["C3"]⟩,
        ⟨"C2", "", "", 0, ["C3"]⟩, ⟨"C3", "", "", 0, []⟩]).laneByRow = [0, 0, 1, 0] ∧
    (⟨0, 1, 0, 0⟩ : GraphEdge) ∈ (buildGraph [⟨"C0", "", "", 0, ["C1", "C2"]⟩,
        ⟨"C1", "", "", 0, ["C3"]⟩, ⟨"C2", "", "", 0, ["C3"]⟩, ⟨"C3", "", "", 0, []⟩]).edges ∧
    (⟨0, 2, 0, 1⟩ : GraphEdge) ∈ (buildGraph [⟨"C0", "", "", 0, ["C1", "C2"]⟩,
        ⟨"C1", "", "", 0, ["C3"]⟩, ⟨"C2", "", "", 0, ["C3"]⟩, ⟨"C3", "", "", 0, []⟩]).edges ∧
    (⟨1, 3, 0, 0⟩ : GraphEdge) ∈ (buildGraph [⟨"C0", "", "", 0, ["C1", "C2"]⟩,
        ⟨"C1", "", "", 0, ["C3"]⟩, ⟨"C2", "", "", 0, ["C3"]⟩, ⟨"C3", "", "", 0, []⟩]).edges ∧
    (⟨2, 3, 1, 0⟩ : GraphEdge) ∈ (buildGraph [⟨"C0", "", "", 0, ["C1", "C2"]⟩,
        ⟨"C1", "", "", 0, ["C3"]⟩, ⟨"C2", "", "", 0, ["C3"]⟩, ⟨"C3", "", "", 0, []⟩]).edges := by
  decide

theorem hashToRowAux_get (h : String) (cs : List CommitSummary) (i r : Nat)
    (hr : hashToRowAux h cs i = some r) :
    i ≤ r ∧ ∃ c, cs[r - i]? = some c ∧ c.hash = h := by
  induction cs generalizing i with
  | nil => simp [hashToRowAux] at hr
  | cons c cs ih =>
    rw [hashToRowAux] at hr
    cases htail : hashToRowAux h cs (i + 1) with
    | some r2 =>
      rw [htail] at hr
      cases hr
      obtain ⟨hle, c2, hget, hhash⟩ := ih (i + 1) htail
      refine ⟨by omega, c2, ?_, hhash⟩
      have : r - i = (r - (i + 1)) + 1 := by omega
      rw [this, List.getElem?_cons_succ]
      exact hget
    | none =>
      rw [htail] at hr
      by_cases hh : c.hash = h
      · rw [if_pos hh] at hr
        cases hr
        exact ⟨le_refl _, c, by simp, hh⟩
      · rw [if_neg hh] at hr
        cases hr

theorem hashToRow_get (items : List CommitSummary) (p : String) (r : Nat)
    (hr : hashToRow items p = some r) :
    ∃ c, items[r]? = some c ∧ c.hash = p := by
  have h := hashToRowAux_get p items 0 r hr
  simpa using h.2

theorem edgesAux_mem (items : List CommitSummary) (lbh : String → Option Nat)
    (lbr : List Nat) :
    ∀ (l : List CommitSummary) (row : Nat), items.drop row = l →
    ∀ e ∈ edgesAux items lbh lbr row l,
      e.fromRow < e.toRow ∧
      ∃ cf, items[e.fromRow]? = some cf ∧ ∃ p ∈ cf.parents, hashToRow items p = some e.toRow := by
  intro l
  induction l with
  | nil => intro row _ e he; simp [edgesAux] at he
  | cons c rest ih =>
    intro row hdrop e he
    have hcur : items[row]? = some c := by
      have h0 : items[row + 0]? = (items.drop row)[0]? := (List.getElem?_drop items row 0).symm
      simpa [hdrop] using h0
    have hnext : items.drop (row + 1) = rest := by
      have h1 := List.drop_drop 1 row items
      rw [hdrop] at h1
      simpa using h1.symm
    rw [edgesAux] at he
    rcases List.mem_append.mp he with hleft | hright
    · obtain ⟨lst, hlst, helst⟩ := List.mem_flatten.mp hleft
      obtain ⟨p, hp, hpe⟩ := List.mem_map.mp hlst
      subst hpe
      cases hp2r : hashToRow items p with
      | none => simp [edgeCandidate, hp2r] at helst
      | some pr =>
        simp only [edgeCandidate, hp2r] at helst
        by_cases hle : pr ≤ row
        · rw [if_pos hle] at helst; simp at helst
        · rw [if_neg hle] at helst
          rcases List.mem_singleton.mp helst with rfl
          refine ⟨?_, c, ?_, p, hp, ?_⟩
          · show row < pr
            omega
          · exact hcur
          · exact hp2r
    · exact ih (row + 1) hnext e hright

/-- C4: every edge emitted by buildGraph joins two valid rows of the input,
points strictly downward, and the hash of its target row is one of the
parents of its source row. -/
theorem C4_edge_invariants (items : List CommitSummary) :
    ∀ e ∈ (buildGraph items).edges,
      e.fromRow < e.toRow ∧ e.fromRow < items.length ∧ e.toRow < items.length ∧
      ∃ cf ct, items[e.fromRow]? = some cf ∧ items[e.toRow]? = some ct ∧
        ct.hash ∈ cf.parents := by
  intro e he
  have hedges : (buildGraph items).edges = edgesOf items (laneState items).laneByHash
      (laneState items).laneByRow := rfl
  rw [hedges, edgesOf] at he
  obtain ⟨hlt, cf, hcf, p, hp, hp2r⟩ :=
    edgesAux_mem items (laneState items).laneByHash (laneState items).laneByRow items 0 rfl e he
  obtain ⟨ct, hct, hhash⟩ := hashToRow_get items p e.toRow hp2r
  have htlen : e.toRow < items.length := by
    by_contra hge
    rw [List.getElem?_eq_none (by omega)] at hct
    cases hct
  exact ⟨hlt, by omega, htlen, cf, ct, hcf, hct, by rw [hhash]; exact hp⟩

/-- Witness for C4: the edge invariants applied to a concrete edge of the
diamond scenario. -/
theorem C4_edge_invariants_witness :
    (⟨0, 2, 0, 1⟩ : GraphEdge).fromRow < (⟨0, 2, 0, 1⟩ : GraphEdge).toRow ∧
    (⟨0, 2, 0, 1⟩ : GraphEdge).fromRow < ([⟨"C0", "", "", 0, ["C1", "C2"]⟩,
      ⟨"C1", "", "", 0, ["C3"]⟩, ⟨"C2", "", "", 0, ["C3"]⟩,
      ⟨"C3", "", "", 0, []⟩] : List CommitSummary).length ∧
    (⟨0, 2, 0, 1⟩ : GraphEdge).toRow < ([⟨"C0", "", "", 0, ["C1", "C2"]⟩,
      ⟨"C1", "", "", 0, ["C3"]⟩, ⟨"C2", "", "", 0, ["C3"]⟩,
      ⟨"C3", "", "", 0, []⟩] : List CommitSummary).length ∧
    ∃ cf ct, ([⟨"C0", "", "", 0, ["C1", "C2"]⟩, ⟨"C1", "", "", 0, ["C3"]⟩,
        ⟨"C2", "", "", 0, ["C3"]⟩, ⟨"C3", "", "", 0, []⟩] :
        List CommitSummary)[(⟨0, 2, 0, 1⟩ : GraphEdge).fromRow]? = some cf ∧
      ([⟨"C0", "", "", 0, ["C1", "C2"]⟩, ⟨"C1", "", "", 0, ["C3"]⟩,
        ⟨"C2", "", "", 0, ["C3"]⟩, ⟨"C3", "", "", 0, []⟩] :
        List CommitSummary)[(⟨0, 2, 0, 1⟩ : GraphEdge).toRow]? = some ct ∧
      ct.hash ∈ cf.parents :=
  C4_edge_invariants [⟨"C0", "", "", 0, ["C1", "C2"]⟩, ⟨"C1", "", "", 0, ["C3"]⟩,
    ⟨"C2", "", "", 0, ["C3"]⟩, ⟨"C3", "", "", 0, []⟩] ⟨0, 2, 0, 1⟩ (by decide)

theorem laneStep_spec (items : List CommitSummary) (m : List String) (s : LaneState)
    (c : CommitSummary) (hn : 1 ≤ s.nextLane) :
    ∃ lane, (laneAssignStep items m s c).laneByRow = lane :: s.laneByRow ∧
      1 ≤ (laneAssignStep items m s c).nextLane ∧
      (lane = 0 ↔ c.hash ∈ m) := by
  by_cases hm : c.hash ∈ m
  · exact ⟨0, by simp [laneAssignStep, hm], by simpa [laneAssignStep, hm] using hn,
      by simp [hm]⟩
  · cases hf : firstVisibleParent items c with
    | none =>
      refine ⟨s.nextLane, by simp [laneAssignStep, hm, hf, allocateLane], ?_, ?_⟩
      · simp [laneAssignStep, hm, hf, allocateLane]
      · constructor
        · intro h0; omega
        · intro hmem; exact absurd hmem hm
    | some fp =>
      by_cases hp : primaryChildOf items m fp = some c.hash ∧ ¬(s.laneByHash fp).getD 0 = 0
      · refine ⟨(s.laneByHash fp).getD 0, by simp [laneAssignStep, hm, hf, hp], ?_, ?_⟩
        · simpa [laneAssignStep, hm, hf, hp] using hn
        · constructor
          · intro h0; exact absurd h0 hp.2
          · intro hmem; exact absurd hmem hm
      · refine ⟨s.nextLane, by simp [laneAssignStep, hm, hf, hp, allocateLane], ?_, ?_⟩
        · simp [laneAssignStep, hm, hf, hp, allocateLane]
        · constructor
          · intro h0; omega
          · intro hmem; exact absurd hmem hm

theorem laneFold_inv (items : List CommitSummary) (m : List String) :
    ∀ (l : List CommitSummary) (s : LaneState) (done : List CommitSummary),
      1 ≤ s.nextLane →
      List.Forall₂ (fun lane c => lane = 0 ↔ c.hash ∈ m) s.laneByRow done →
      1 ≤ (l.foldl (laneAssignStep items m) s).nextLane ∧
      List.Forall₂ (fun lane c => lane = 0 ↔ c.hash ∈ m)
        (l.foldl (laneAssignStep items m) s).laneByRow (l.reverse ++ done) := by
  intro l
  induction l with
  | nil => intro s done hn hf; exact ⟨hn, by simpa using hf⟩
  | cons c l ih =>
    intro s done hn hf
    obtain ⟨lane, hrow, hn2, hiff⟩ := laneStep_spec items m s c hn
    have h2 := ih (laneAssignStep items m s c) (c :: done) hn2
      (by rw [hrow]; exact List.Forall₂.cons hiff hf)
    rw [List.foldl_cons]
    refine ⟨h2.1, ?_⟩
    have hsh : (c :: l).reverse ++ done = l.reverse ++ (c :: done) := by simp
    rw [hsh]
    exact h2.2

theorem buildGraph_laneByRow_pairing (items : List CommitSummary) :
    List.Forall₂ (fun lane c => lane = 0 ↔ c.hash ∈ mainlineOf items)
      (buildGraph items).laneByRow items := by
  have h := (laneFold_inv items (mainlineOf items) items.reverse
    ⟨fun _ => none, [], 1, 1⟩ [] (by norm_num) (by simp)).2
  simpa [buildGraph, laneState] using h

/-- C3: for every input, laneByRow has exactly one entry per commit, and every
commit whose hash lies on the mainline chain obtained from row 0 by the
first-visible-parent walk is assigned lane 0. -/
theorem C3_laneByRow_length_and_mainline (items : List CommitSummary) :
    (buildGraph items).laneByRow.length = items.length ∧
    ∀ (row : Nat) (h1 : row < items.length) (h2 : row < (buildGraph items).laneByRow.length),
      (items.get ⟨row, h1⟩).hash ∈ mainlineOf items →
      (buildGraph items).laneByRow.get ⟨row, h2⟩ = 0 := by
  have hp := buildGraph_laneByRow_pairing items
  refine ⟨hp.length_eq, ?_⟩
  intro row h1 h2 hmem
  exact ((List.forall₂_iff_get.mp hp).2 row h2 h1).mpr hmem

/-- Witness for C3 at a one-commit input whose only row is on the mainline. -/
theorem C3_laneByRow_witness :
    (buildGraph [⟨"a", "", "", 0, []⟩]).laneByRow.length =
      ([⟨"a", "", "", 0, []⟩] : List CommitSummary).length ∧
    (buildGraph [⟨"a", "", "", 0, []⟩]).laneByRow.get ⟨0, by decide⟩ = 0 :=
  ⟨(C3_laneByRow_length_and_mainline [⟨"a", "", "", 0, []⟩]).1,
    (C3_laneByRow_length_and_mainline [⟨"a", "", "", 0, []⟩]).2 0 (by decide) (by decide)
      (by decide)⟩

/-- C10: a commit is assigned lane 0 by buildGraph iff its hash lies on the
mainline chain, and every non-mainline commit receives a lane of at least 1. -/
theorem C10_lane_zero_iff_mainline (items : List CommitSummary) (row : Nat)
    (h1 : row < items.length) (h2 : row < (buildGraph items).laneByRow.length) :
    ((buildGraph items).laneByRow.get ⟨row, h2⟩ = 0 ↔
      (items.get ⟨row, h1⟩).hash ∈ mainlineOf items) ∧
    ((items.get ⟨row, h1⟩).hash ∉ mainlineOf items →
      1 ≤ (buildGraph items).laneByRow.get ⟨row, h2⟩) := by
  have hp := buildGraph_laneByRow_pairing items
  have hiff := (List.forall₂_iff_get.mp hp).2 row h2 h1
  refine ⟨hiff, ?_⟩
  intro hnot
  have hne : ¬(buildGraph items).laneByRow.get ⟨row, h2⟩ = 0 := fun h0 => hnot (hiff.mp h0)
  omega

/-- Witness for C10 at a two-commit input whose second row is off the mainline. -/
theorem C10_lane_zero_iff_mainline_witness :
    ((buildGraph [⟨"a", "", "", 0, []⟩, ⟨"b", "", "", 0, []⟩]).laneByRow.get ⟨1, by decide⟩ = 0 ↔
      (([⟨"a", "", "", 0, []⟩, ⟨"b", "", "", 0, []⟩] :
        List CommitSummary).get ⟨1, by decide⟩).hash ∈
        mainlineOf [⟨"a", "", "", 0, []⟩, ⟨"b", "", "", 0, []⟩]) ∧
    ((([⟨"a", "", "", 0, []⟩, ⟨"b", "", "", 0, []⟩] :
        List CommitSummary).get ⟨1, by decide⟩).hash ∉
        mainlineOf [⟨"a", "", "", 0, []⟩, ⟨"b", "", "", 0, []⟩] →
      1 ≤ (buildGraph [⟨"a", "", "", 0, []⟩, ⟨"b", "", "", 0, []⟩]).laneByRow.get ⟨1, by decide⟩) :=
  C10_lane_zero_iff_mainline [⟨"a", "", "", 0, []⟩, ⟨"b", "", "", 0, []⟩] 1 (by decide) (by decide)

/-- Witness for C8: the append part applied at a concrete pair of merge
commits in one group. -/
theorem C8_append_and_merge_relations_witness :
    buildFlowGroups
        ([⟨"m1", "", "Merge branch 'a'", 0, []⟩] ++ [⟨"m2", "", "Merge branch 'b'", 60000, []⟩])
        (fun _ => none) (fun _ => "main") =
      [] ++ [appendToGroup
        ⟨"m1", 0, "main", "merge", 0, 0, [⟨"m1", "", "Merge branch 'a'", 0, []⟩],
          [⟨RelationKind.merge, "Merge", 1⟩]⟩
        (relationOf "Merge branch 'b'") ⟨"m2", "", "Merge branch 'b'", 60000, []⟩] ∧
    (appendToGroup
        ⟨"m1", 0, "main", "merge", 0, 0, [⟨"m1", "", "Merge branch 'a'", 0, []⟩],
          [⟨RelationKind.merge, "Merge", 1⟩]⟩
        (relationOf "Merge branch 'b'") ⟨"m2", "", "Merge branch 'b'", 60000, []⟩).endedAt = 60000 ∧
    (appendToGroup
        ⟨"m1", 0, "main", "merge", 0, 0, [⟨"m1", "", "Merge branch 'a'", 0, []⟩],
          [⟨RelationKind.merge, "Merge", 1⟩]⟩
        (relationOf "Merge branch 'b'") ⟨"m2", "", "Merge branch 'b'", 60000, []⟩).startedAt =
      max (0 : Int) 60000 := by
  exact C8_append_and_merge_relations.1 (fun _ => none) (fun _ => "main")
    [⟨"m1", "", "Merge branch 'a'", 0, []⟩] ⟨"m2", "", "Merge branch 'b'", 60000, []⟩ []
    ⟨"m1", 0, "main", "merge", 0, 0, [⟨"m1", "", "Merge branch 'a'", 0, []⟩],
      [⟨RelationKind.merge, "Merge", 1⟩]⟩ (by decide) (by decide)

theorem commitByHash_mem (h : String) (items : List CommitSummary) (c : CommitSummary)
    (hc : commitByHash h items = some c) : h ∈ items.map CommitSummary.hash := by
  induction items with
  | nil => simp [commitByHash] at hc
  | cons y ys ih =>
    rw [commitByHash] at hc
    cases htail : commitByHash h ys with
    | some c2 =>
      rw [htail] at hc
      exact List.mem_cons_of_mem _ (ih (by rw [htail]; cases hc; rfl))
    | none =>
      rw [htail] at hc
      by_cases hy : y.hash = h
      · exact List.mem_cons.mpr (Or.inl hy.symm)
      · rw [if_neg hy] at hc
        cases hc

theorem filter_notmem_snoc_length (l : List String) (acc : List String) (x : String)
    (hnd : l.Nodup) (hx : x ∈ l) (hnacc : x ∉ acc) :
    (l.filter (fun h => decide (h ∉ acc ++ [x]))).length + 1 =
    (l.filter (fun h => decide (h ∉ acc))).length := by
  induction l with
  | nil => cases hx
  | cons y ys ih =>
    rw [List.nodup_cons] at hnd
    rcases List.mem_cons.mp hx with heq | hxy
    · subst heq
      have h1 : (decide (x ∉ acc ++ [x])) = false := by simp
      have h2 : (decide (x ∉ acc)) = true := by simpa using hnacc
      rw [List.filter_cons, List.filter_cons, h1, h2]
      have hcong : ys.filter (fun h => decide (h ∉ acc ++ [x]))
          = ys.filter (fun h => decide (h ∉ acc)) := by
        apply List.filter_congr
        intro a ha
        have hax : ¬a = x := fun he => hnd.1 (he ▸ ha)
        simp [List.mem_append, hax]
      rw [if_neg (by simp), if_pos rfl, hcong]
      simp
    · have hyx : ¬y = x := fun he => hnd.1 (he ▸ hxy)
      have hyeq : (decide (y ∉ acc ++ [x])) = (decide (y ∉ acc)) := by
        simp [List.mem_append, hyx]
      rw [List.filter_cons, List.filter_cons, hyeq]
      by_cases hy : decide (y ∉ acc) = true
      · rw [if_pos hy, if_pos hy]
        simp only [List.length_cons]
        have hih := ih hnd.2 hxy
        omega
      · rw [if_neg hy, if_neg hy]
        exact ih hnd.2 hxy


theorem mainlineAux_fuel_stable (items : List CommitSummary) :
    ∀ (fuel : Nat) (cursor : String) (acc : List String),
      ((items.map CommitSummary.hash).dedup.filter
        (fun x => decide (x ∉ acc))).length + 1 ≤ fuel →
      mainlineAux items (fuel + 1) cursor acc = mainlineAux items fuel cursor acc := by
  intro fuel
  induction fuel with
  | zero => intro cursor acc hle; omega
  | succ f ih =>
    intro cursor acc hle
    by_cases h1 : cursor = ""
    · simp [mainlineAux, h1]
    by_cases h2 : cursor ∈ acc
    · simp [mainlineAux, h1, h2]
    cases hcb : commitByHash cursor items with
    | none => simp [mainlineAux, h1, h2, hcb]
    | some c =>
      cases hfv : firstVisibleParent items c with
      | none => simp [mainlineAux, h1, h2, hcb, hfv]
      | some next =>
        have hmem : cursor ∈ (items.map CommitSummary.hash).dedup :=
          List.mem_dedup.mpr (commitByHash_mem cursor items c hcb)
        have hdrop := filter_notmem_snoc_length (items.map CommitSummary.hash).dedup
          acc cursor (List.nodup_dedup _) hmem h2
        have hbound : ((items.map CommitSummary.hash).dedup.filter
            (fun x => decide (x ∉ acc ++ [cursor]))).length + 1 ≤ f := by omega
        have unfold1 : ∀ fl : Nat, mainlineAux items (fl + 1) cursor acc
            = mainlineAux items fl next (acc ++ [cursor]) := by
          intro fl
          simp [mainlineAux, h1, h2, hcb, hfv]
        rw [unfold1 (f + 1), unfold1 f]
        exact ih next (acc ++ [cursor]) hbound


theorem mainlineAux_fuel_ge (items : List CommitSummary) (cursor : String) (acc : List String)
    (f k : Nat)
    (hf : ((items.map CommitSummary.hash).dedup.filter
      (fun x => decide (x ∉ acc))).length + 1 ≤ f) :
    mainlineAux items (f + k) cursor acc = mainlineAux items f cursor acc := by
  induction k with
  | zero => rfl
  | succ k ih =>
    have hst := mainlineAux_fuel_stable items (f + k) cursor acc (by omega)
    calc mainlineAux items (f + (k + 1)) cursor acc
        = mainlineAux items ((f + k) + 1) cursor acc := rfl
      _ = mainlineAux items (f + k) cursor acc := hst
      _ = mainlineAux items f cursor acc := ih

theorem branchWalkAux_exit (items : List CommitSummary) (label : String)
    (priority fl : Nat) (cursor : String) (distance : Nat) (seen : List String)
    (asg : String → Option Assignment)
    (h : cursor = "" ∨ (hashToRow items cursor).isNone = true ∨ cursor ∈ seen ∨
      items.length + 8 < distance) :
    branchWalkAux items label priority (fl + 1) cursor distance seen asg = asg := by
  rcases h with h | h | h | h <;> simp [branchWalkAux, h]

theorem branchWalkAux_none (items : List CommitSummary) (label : String)
    (priority fl : Nat) (cursor : String) (distance : Nat) (seen : List String)
    (asg : String → Option Assignment)
    (hc1 : ¬cursor = "") (hc2 : ¬(hashToRow items cursor).isNone = true)
    (hc3 : ¬cursor ∈ seen) (hc4 : ¬items.length + 8 < distance)
    (hcb : commitByHash cursor items = none) :
    branchWalkAux items label priority (fl + 1) cursor distance seen asg =
      assignStep label priority distance cursor asg := by
  simp [branchWalkAux, hc1, hc2, hc3, hc4, hcb]

theorem branchWalkAux_nofvp (items : List CommitSummary) (label : String)
    (priority fl : Nat) (cursor : String) (distance : Nat) (seen : List String)
    (asg : String → Option Assignment) (c : CommitSummary)
    (hc1 : ¬cursor = "") (hc2 : ¬(hashToRow items cursor).isNone = true)
    (hc3 : ¬cursor ∈ seen) (hc4 : ¬items.length + 8 < distance)
    (hcb : commitByHash cursor items = some c)
    (hfv : firstVisibleParent items c = none) :
    branchWalkAux items label priority (fl + 1) cursor distance seen asg =
      assignStep label priority distance cursor asg := by
  simp [branchWalkAux, hc1, hc2, hc3, hc4, hcb, hfv]

theorem branchWalkAux_step (items : List CommitSummary) (label : String)
    (priority fl : Nat) (cursor : String) (distance : Nat) (seen : List String)
    (asg : String → Option Assignment) (c : CommitSummary) (next : String)
    (hc1 : ¬cursor = "") (hc2 : ¬(hashToRow items cursor).isNone = true)
    (hc3 : ¬cursor ∈ seen) (hc4 : ¬items.length + 8 < distance)
    (hcb : commitByHash cursor items = some c)
    (hfv : firstVisibleParent items c = some next) :
    branchWalkAux items label priority (fl + 1) cursor distance seen asg =
      branchWalkAux items label priority fl next (distance + 1) (seen ++ [cursor])
        (assignStep label priority distance cursor asg) := by
  simp [branchWalkAux, hc1, hc2, hc3, hc4, hcb, hfv]

theorem branchWalkAux_fuel_stable (items : List CommitSummary) (label : String)
    (priority : Nat) :
    ∀ (fuel fuel2 : Nat) (cursor : String) (distance : Nat) (seen : List String)
      (asg : String → Option Assignment),
      items.length + 9 ≤ fuel + distance → items.length + 9 ≤ fuel2 + distance →
      branchWalkAux items label priority fuel cursor distance seen asg =
      branchWalkAux items label priority fuel2 cursor distance seen asg := by
  intro fuel
  induction fuel with
  | zero =>
    intro fuel2 cursor distance seen asg h1 h2
    cases fuel2 with
    | zero => rfl
    | succ f2 =>
      exact (branchWalkAux_exit items label priority f2 cursor distance seen asg
        (Or.inr (Or.inr (Or.inr (by omega))))).symm
  | succ f ih =>
    intro fuel2 cursor distance seen asg h1 h2
    cases fuel2 with
    | zero =>
      exact branchWalkAux_exit items label priority f cursor distance seen asg
        (Or.inr (Or.inr (Or.inr (by omega))))
    | succ f2 =>
      by_cases hc1 : cursor = ""
      · rw [branchWalkAux_exit items label priority f cursor distance seen asg (Or.inl hc1),
          branchWalkAux_exit items label priority f2 cursor distance seen asg (Or.inl hc1)]
      by_cases hc2 : (hashToRow items cursor).isNone = true
      · rw [branchWalkAux_exit items label priority f cursor distance seen asg
            (Or.inr (Or.inl hc2)),
          branchWalkAux_exit items label priority f2 cursor distance seen asg
            (Or.inr (Or.inl hc2))]
      by_cases hc3 : cursor ∈ seen
      · rw [branchWalkAux_exit items label priority f cursor distance seen asg
            (Or.inr (Or.inr (Or.inl hc3))),
          branchWalkAux_exit items label priority f2 cursor distance seen asg
            (Or.inr (Or.inr (Or.inl hc3)))]
      by_cases hc4 : items.length + 8 < distance
      · rw [branchWalkAux_exit items label priority f cursor distance seen asg
            (Or.inr (Or.inr (Or.inr hc4))),
          branchWalkAux_exit items label priority f2 cursor distance seen asg
            (Or.inr (Or.inr (Or.inr hc4)))]
      cases hcb : commitByHash cursor items with
      | none =>
        rw [branchWalkAux_none items label priority f cursor distance seen asg
            hc1 hc2 hc3 hc4 hcb,
          branchWalkAux_none items label priority f2 cursor distance seen asg
            hc1 hc2 hc3 hc4 hcb]
      | some c =>
        cases hfv : firstVisibleParent items c with
        | none =>
          rw [branchWalkAux_nofvp items label priority f cursor distance seen asg c
              hc1 hc2 hc3 hc4 hcb hfv,
            branchWalkAux_nofvp items label priority f2 cursor distance seen asg c
              hc1 hc2 hc3 hc4 hcb hfv]
        | some next =>
          rw [branchWalkAux_step items label priority f cursor distance seen asg c next
              hc1 hc2 hc3 hc4 hcb hfv,
            branchWalkAux_step items label priority f2 cursor distance seen asg c next
              hc1 hc2 hc3 hc4 hcb hfv]
          exact ih f2 next (distance + 1) (seen ++ [cursor])
            (assignStep label priority distance cursor asg) (by omega) (by omega)

/-- C9: both ancestry walks reach their own exit conditions within the fuel
the engine allots, on every input including cyclic parent graphs: the
mainline walk is unchanged by any extra fuel beyond items.length + 1, and
the branch-tip walk is unchanged by any extra fuel beyond its explicit
items.length + 8 hop bound, so both functions are total. -/
theorem C9_walks_terminate :
    (∀ (items : List CommitSummary) (cursor : String) (k : Nat),
      mainlineAux items (items.length + 1 + k) cursor [] =
        mainlineAux items (items.length + 1) cursor []) ∧
    (∀ (items : List CommitSummary) (label : String) (priority : Nat) (tip : String)
       (k : Nat) (asg : String → Option Assignment),
      branchWalkAux items label priority (items.length + 9 + k) tip 0 [] asg =
        branchWalkAux items label priority (items.length + 9) tip 0 [] asg) := by
  constructor
  · intro items cursor k
    apply mainlineAux_fuel_ge
    have hle1 : ((items.map CommitSummary.hash).dedup.filter
        (fun x => decide (x ∉ ([] : List String)))).length ≤
        (items.map CommitSummary.hash).dedup.length := List.length_filter_le _ _
    have hle2 : (items.map CommitSummary.hash).dedup.length ≤
        (items.map CommitSummary.hash).length := (List.dedup_sublist _).length_le
    have hle3 : (items.map CommitSummary.hash).length = items.length := List.length_map _ _
    omega
  · intro items label priority tip k asg
    exact branchWalkAux_fuel_stable items label priority (items.length + 9 + k)
      (items.length + 9) tip 0 [] asg (by omega) (by omega)

theorem assignStep_ne (label : String) (priority distance : Nat) (cursor : String)
    (asg : String → Option Assignment) (h : String) (hne : ¬h = cursor) :
    assignStep label priority distance cursor asg h = asg h := by
  unfold assignStep
  split
  · simp [hne]
  · rfl

theorem assignStep_cases (label : String) (priority distance : Nat) (cursor : String)
    (asg : String → Option Assignment) (h : String) :
    assignStep label priority distance cursor asg h = asg h ∨
    assignStep label priority distance cursor asg h = some ⟨label, priority, distance⟩ := by
  unfold assignStep
  split
  · by_cases hh : h = cursor
    · subst hh; simp
    · simp [hh]
  · left; rfl

theorem assignStep_frozen (label : String) (priority distance : Nat) (cursor : String)
    (asg : String → Option Assignment) (a : Assignment)
    (ha : asg cursor = some a) (hp : a.priority = 0) (hd : a.distance = 0) :
    assignStep label priority distance cursor asg = asg := by
  unfold assignStep
  rw [ha]
  simp [hp, hd]

theorem assignStep_writes (label : String) (priority distance : Nat) (cursor : String)
    (asg : String → Option Assignment)
    (hw : asg cursor = none ∨ ∃ a, asg cursor = some a ∧ priority < a.priority) :
    assignStep label priority distance cursor asg cursor = some ⟨label, priority, distance⟩ := by
  unfold assignStep
  rcases hw with hw | ⟨a, ha, hlt⟩
  · rw [hw]; simp
  · rw [ha]; simp [hlt]


theorem branchWalkAux_pointwise (items : List CommitSummary) (label : String)
    (priority : Nat) (P : Option Assignment → Prop)
    (hstep : ∀ (distance : Nat) (cursor : String) (asg : String → Option Assignment)
      (h : String), P (asg h) → P (assignStep label priority distance cursor asg h)) :
    ∀ (fuel : Nat) (cursor : String) (distance : Nat) (seen : List String)
      (asg : String → Option Assignment) (h : String),
      P (asg h) →
      P (branchWalkAux items label priority fuel cursor distance seen asg h) := by
  intro fuel
  induction fuel with
  | zero => intro cursor distance seen asg h hP; exact hP
  | succ f ih =>
    intro cursor distance seen asg h hP
    by_cases hc1 : cursor = ""
    · rw [branchWalkAux_exit items label priority f cursor distance seen asg (Or.inl hc1)]
      exact hP
    by_cases hc2 : (hashToRow items cursor).isNone = true
    · rw [branchWalkAux_exit items label priority f cursor distance seen asg
        (Or.inr (Or.inl hc2))]
      exact hP
    by_cases hc3 : cursor ∈ seen
    · rw [branchWalkAux_exit items label priority f cursor distance seen asg
        (Or.inr (Or.inr (Or.inl hc3)))]
      exact hP
    by_cases hc4 : items.length + 8 < distance
    · rw [branchWalkAux_exit items label priority f cursor distance seen asg
        (Or.inr (Or.inr (Or.inr hc4)))]
      exact hP
    have hP2 : P (assignStep label priority distance cursor asg h) :=
      hstep distance cursor asg h hP
    cases hcb : commitByHash cursor items with
    | none =>
      rw [branchWalkAux_none items label priority f cursor distance seen asg
        hc1 hc2 hc3 hc4 hcb]
      exact hP2
    | some c =>
      cases hfv : firstVisibleParent items c with
      | none =>
        rw [branchWalkAux_nofvp items label priority f cursor distance seen asg c
          hc1 hc2 hc3 hc4 hcb hfv]
        exact hP2
      | some next =>
        rw [branchWalkAux_step items label priority f cursor distance seen asg c next
          hc1 hc2 hc3 hc4 hcb hfv]
        exact ih next (distance + 1) (seen ++ [cursor])
          (assignStep label priority distance cursor asg) h hP2

theorem branchWalkAux_seen (items : List CommitSummary) (label : String) (priority : Nat) :
    ∀ (fuel : Nat) (cursor : String) (distance : Nat) (seen : List String)
      (asg : String → Option Assignment) (h : String), h ∈ seen →
      branchWalkAux items label priority fuel cursor distance seen asg h = asg h := by
  intro fuel
  induction fuel with
  | zero => intro cursor distance seen asg h _; rfl
  | succ f ih =>
    intro cursor distance seen asg h hmem
    by_cases hc1 : cursor = ""
    · rw [branchWalkAux_exit items label priority f cursor distance seen asg (Or.inl hc1)]
    by_cases hc2 : (hashToRow items cursor).isNone = true
    · rw [branchWalkAux_exit items label priority f cursor distance seen asg
        (Or.inr (Or.inl hc2))]
    by_cases hc3 : cursor ∈ seen
    · rw [branchWalkAux_exit items label priority f cursor distance seen asg
        (Or.inr (Or.inr (Or.inl hc3)))]
    by_cases hc4 : items.length + 8 < distance
    · rw [branchWalkAux_exit items label priority f cursor distance seen asg
        (Or.inr (Or.inr (Or.inr hc4)))]
    have hne : ¬h = cursor := fun he => hc3 (he ▸ hmem)
    have hstep1 : assignStep label priority distance cursor asg h = asg h :=
      assignStep_ne label priority distance cursor asg h hne
    cases hcb : commitByHash cursor items with
    | none =>
      rw [branchWalkAux_none items label priority f cursor distance seen asg
        hc1 hc2 hc3 hc4 hcb]
      exact hstep1
    | some c =>
      cases hfv : firstVisibleParent items c with
      | none =>
        rw [branchWalkAux_nofvp items label priority f cursor distance seen asg c
          hc1 hc2 hc3 hc4 hcb hfv]
        exact hstep1
      | some next =>
        rw [branchWalkAux_step items label priority f cursor distance seen asg c next
          hc1 hc2 hc3 hc4 hcb hfv]
        rw [ih next (distance + 1) (seen ++ [cursor])
          (assignStep label priority distance cursor asg) h
          (List.mem_append_left _ hmem)]
        exact hstep1

theorem branchWalkAux_start (items : List CommitSummary) (label : String)
    (priority fl : Nat) (tip : String) (asg : String → Option Assignment)
    (hne : ¬tip = "") (hvis : ¬(hashToRow items tip).isNone = true)
    (hw : assignStep label priority 0 tip asg tip = some ⟨label, priority, 0⟩) :
    branchWalkAux items label priority (fl + 1) tip 0 [] asg tip =
      some ⟨label, priority, 0⟩ := by
  have hc3 : ¬tip ∈ ([] : List String) := by simp
  have hc4 : ¬items.length + 8 < 0 := by omega
  cases hcb : commitByHash tip items with
  | none =>
    rw [branchWalkAux_none items label priority fl tip 0 [] asg hne hvis hc3 hc4 hcb]
    exact hw
  | some c =>
    cases hfv : firstVisibleParent items c with
    | none =>
      rw [branchWalkAux_nofvp items label priority fl tip 0 [] asg c hne hvis hc3 hc4 hcb hfv]
      exact hw
    | some next =>
      rw [branchWalkAux_step items label priority fl tip 0 [] asg c next
        hne hvis hc3 hc4 hcb hfv]
      rw [branchWalkAux_seen items label priority fl next 1 ([] ++ [tip])
        (assignStep label priority 0 tip asg) tip (by simp)]
      exact hw


theorem insertBranch_perm (x : BranchInfo) (l : List BranchInfo) :
    List.Perm (insertBranch x l) (x :: l) := by
  induction l with
  | nil => exact List.Perm.refl _
  | cons y ys ih =>
    rw [insertBranch]
    by_cases h : branchLE x y = true
    · rw [if_pos h]
    · rw [if_neg h]
      exact (List.Perm.cons y ih).trans (List.Perm.swap x y ys)

theorem sortedBranches_perm (l : List BranchInfo) :
    List.Perm (sortedBranches l) l := by
  induction l with
  | nil => exact List.Perm.refl _
  | cons x xs ih =>
    rw [sortedBranches]
    exact (insertBranch_perm x (sortedBranches xs)).trans (List.Perm.cons x ih)

theorem processBranch_none (items : List CommitSummary) (asg : String → Option Assignment)
    (b : BranchInfo) (htg : b.targetHash = none) :
    processBranch items asg b = asg := by
  unfold processBranch
  rw [htg]

theorem processBranch_eq (items : List CommitSummary) (asg : String → Option Assignment)
    (b : BranchInfo) (tip : String) (htg : b.targetHash = some tip) :
    processBranch items asg b =
      if (decide (tip = "") || (hashToRow items tip).isNone) = true then asg
      else branchWalkAux items (branchDisplayLabel b) (branchPriority b)
        (items.length + 9) tip 0 [] asg := by
  unfold processBranch
  rw [htg]

theorem processBranch_frozen (items : List CommitSummary) (b : BranchInfo)
    (asg : String → Option Assignment) (h : String) (a : Assignment)
    (ha : asg h = some a) (hp : a.priority = 0) (hd : a.distance = 0) :
    processBranch items asg b h = some a := by
  cases htg : b.targetHash with
  | none => rw [processBranch_none items asg b htg]; exact ha
  | some tip =>
    rw [processBranch_eq items asg b tip htg]
    split
    · exact ha
    · refine branchWalkAux_pointwise items (branchDisplayLabel b) (branchPriority b)
        (fun o => o = some a) ?_ (items.length + 9) tip 0 [] asg h ha
      intro d cur asg2 h2 hP
      by_cases hh : h2 = cur
      · subst hh
        rw [assignStep_frozen (branchDisplayLabel b) (branchPriority b) d h2 asg2 a hP hp hd]
        exact hP
      · rw [assignStep_ne (branchDisplayLabel b) (branchPriority b) d cur asg2 h2 hh]
        exact hP

theorem processBranch_ge1 (items : List CommitSummary) (b : BranchInfo)
    (hb : ¬b.isCurrent = true) (asg : String → Option Assignment) (h : String)
    (hP : asg h = none ∨ ∃ a, asg h = some a ∧ 1 ≤ a.priority) :
    processBranch items asg b h = none ∨
      ∃ a, processBranch items asg b h = some a ∧ 1 ≤ a.priority := by
  have hpr : 1 ≤ branchPriority b := by
    unfold branchPriority
    rw [if_neg hb]
    split <;> omega
  cases htg : b.targetHash with
  | none => rw [processBranch_none items asg b htg]; exact hP
  | some tip =>
    rw [processBranch_eq items asg b tip htg]
    split
    · exact hP
    · refine branchWalkAux_pointwise items (branchDisplayLabel b) (branchPriority b)
        (fun o => o = none ∨ ∃ a, o = some a ∧ 1 ≤ a.priority) ?_
        (items.length + 9) tip 0 [] asg h hP
      intro d cur asg2 h2 hP2
      rcases assignStep_cases (branchDisplayLabel b) (branchPriority b) d cur asg2 h2 with
        he | he
      · rw [he]; exact hP2
      · rw [he]
        exact Or.inr ⟨⟨branchDisplayLabel b, branchPriority b, d⟩, rfl, hpr⟩

theorem processBranch_current (items : List CommitSummary) (b : BranchInfo) (tip : String)
    (asg : String → Option Assignment)
    (hcur : b.isCurrent = true) (hrem : b.isRemote = false)
    (htg : b.targetHash = some tip) (hne : ¬tip = "")
    (hvis : (hashToRow items tip).isSome = true)
    (hP : asg tip = none ∨ ∃ a, asg tip = some a ∧ 1 ≤ a.priority) :
    processBranch items asg b tip = some ⟨b.name, 0, 0⟩ := by
  have hvn : ¬(hashToRow items tip).isNone = true := by
    cases hop : hashToRow items tip with
    | none => rw [hop] at hvis; simp at hvis
    | some r => simp [hop]
  have hpr0 : branchPriority b = 0 := by
    unfold branchPriority
    rw [if_pos hcur]
  have hlab : branchDisplayLabel b = b.name := by
    unfold branchDisplayLabel
    rw [hrem]
    rfl
  rw [processBranch_eq items asg b tip htg]
  rw [if_neg (by simp [hne, hvn])]
  rw [hlab, hpr0]
  have hw : assignStep b.name 0 0 tip asg tip = some ⟨b.name, 0, 0⟩ := by
    apply assignStep_writes
    rcases hP with h | ⟨a, ha, hge⟩
    · exact Or.inl h
    · exact Or.inr ⟨a, ha, by omega⟩
  exact branchWalkAux_start items b.name 0 (items.length + 8) tip asg hne hvn hw

theorem foldl_frozen (items : List CommitSummary) :
    ∀ (l : List BranchInfo) (asg : String → Option Assignment) (h : String) (a : Assignment),
      asg h = some a → a.priority = 0 → a.distance = 0 →
      (l.foldl (processBranch items) asg) h = some a := by
  intro l
  induction l with
  | nil => intro asg h a ha _ _; exact ha
  | cons x xs ih =>
    intro asg h a ha hp hd
    rw [List.foldl_cons]
    exact ih _ h a (processBranch_frozen items x asg h a ha hp hd) hp hd

theorem foldl_establish (items : List CommitSummary) (b : BranchInfo) (tip : String)
    (hcur : b.isCurrent = true) (hrem : b.isRemote = false)
    (htg : b.targetHash = some tip) (hne : ¬tip = "")
    (hvis : (hashToRow items tip).isSome = true) :
    ∀ (l : List BranchInfo) (asg : String → Option Assignment),
      b ∈ l → (∀ x ∈ l, x.isCurrent = true → x = b) →
      (asg tip = none ∨ ∃ a, asg tip = some a ∧ 1 ≤ a.priority) →
      (l.foldl (processBranch items) asg) tip = some ⟨b.name, 0, 0⟩ := by
  intro l
  induction l with
  | nil => intro asg hmem _ _; cases hmem
  | cons x xs ih =>
    intro asg hmem hall hP
    rw [List.foldl_cons]
    by_cases hxc : x.isCurrent = true
    · have hxb : x = b := hall x (List.mem_cons_self x xs) hxc
      subst hxb
      have hstep := processBranch_current items x tip asg hcur hrem htg hne hvis hP
      exact foldl_frozen items xs _ tip ⟨x.name, 0, 0⟩ hstep rfl rfl
    · have hmem2 : b ∈ xs := by
        rcases List.mem_cons.mp hmem with heq | hm
        · exact absurd (heq ▸ hcur) hxc
        · exact hm
      exact ih _ hmem2 (fun y hy hyc => hall y (List.mem_cons_of_mem _ hy) hyc)
        (processBranch_ge1 items x hxc asg tip hP)

/-- C6: when exactly one branch of the input is marked current, it is local,
and its target hash is a visible (non-empty) commit hash, the label map
assigns that tip commit the name of the current branch itself. -/
theorem C6_current_branch_tip_label (items : List CommitSummary)
    (branchItems : List BranchInfo) (b : BranchInfo) (tip : String)
    (hmem : b ∈ branchItems) (hcur : b.isCurrent = true) (hrem : b.isRemote = false)
    (huniq : ∀ x ∈ branchItems, x.isCurrent = true → x = b)
    (htg : b.targetHash = some tip) (hne : ¬tip = "")
    (hvis : (hashToRow items tip).isSome = true) :
    buildFlowBranchLabelMap items branchItems tip = some b.name := by
  have hperm := sortedBranches_perm branchItems
  have hmem2 : b ∈ sortedBranches branchItems := hperm.mem_iff.mpr hmem
  have hall2 : ∀ x ∈ sortedBranches branchItems, x.isCurrent = true → x = b :=
    fun x hx => huniq x (hperm.mem_iff.mp hx)
  have hfold := foldl_establish items b tip hcur hrem htg hne hvis
    (sortedBranches branchItems) (fun _ => none) hmem2 hall2 (Or.inl rfl)
  unfold buildFlowBranchLabelMap
  rw [hfold]
  rfl

/-- Witness for C6 at a one-branch one-commit input. -/
theorem C6_current_branch_tip_label_witness :
    buildFlowBranchLabelMap [⟨"h1", "", "", 0, []⟩]
      [⟨"main", true, false, some "h1"⟩] "h1" = some "main" :=
  C6_current_branch_tip_label [⟨"h1", "", "", 0, []⟩]
    [⟨"main", true, false, some "h1"⟩] ⟨"main", true, false, some "h1"⟩ "h1"
    (by decide) rfl rfl (by decide) rfl (by decide) (by decide)


/-- Counterexample for C7 as stated: a remote branch under the remote
upstream keeps its full name as label; the prefix is not stripped, so the
recorded label differs from the claimed remote-free name. -/
theorem C7_remote_prefix_counterexample :
    buildFlowBranchLabelMap [⟨"h1", "", "", 0, []⟩]
      [⟨"upstream/main", false, true, some "h1"⟩] "h1" = some "upstream/main" ∧
    ¬("upstream/main" : String) = "main" := by
  constructor
  · decide
  · decide

/-- C7 amended: the display label of a remote branch is its name with one
literal anchored origin/ prefix removed, names under any other remote are
used unchanged, and the walked tip of a single remote branch records exactly
that label. -/
theorem C7_remote_origin_strip :
    (∀ rest : List Char,
      stripOrigin (String.mk ('o' :: 'r' :: 'i' :: 'g' :: 'i' :: 'n' :: '/' :: rest)) =
        String.mk rest) ∧
    (∀ (items : List CommitSummary) (b : BranchInfo) (tip : String),
      b.isRemote = true → b.targetHash = some tip → ¬tip = "" →
      (hashToRow items tip).isSome = true →
      buildFlowBranchLabelMap items [b] tip = some (stripOrigin b.name)) := by
  constructor
  · intro rest
    rfl
  · intro items b tip hrem htg hne hvis
    have hvn : ¬(hashToRow items tip).isNone = true := by
      cases hop : hashToRow items tip with
      | none => rw [hop] at hvis; simp at hvis
      | some r => simp [hop]
    have hlab : branchDisplayLabel b = stripOrigin b.name := by
      unfold branchDisplayLabel
      rw [hrem]
      rfl
    have hsort : sortedBranches [b] = [b] := rfl
    unfold buildFlowBranchLabelMap
    rw [hsort, List.foldl_cons, List.foldl_nil]
    rw [processBranch_eq items (fun _ => none) b tip htg]
    rw [if_neg (by simp [hne, hvn])]
    have hw : assignStep (branchDisplayLabel b) (branchPriority b) 0 tip
        (fun _ => none) tip = some ⟨branchDisplayLabel b, branchPriority b, 0⟩ :=
      assignStep_writes _ _ _ _ _ (Or.inl rfl)
    rw [branchWalkAux_start items (branchDisplayLabel b) (branchPriority b)
      (items.length + 8) tip (fun _ => none) hne hvn hw]
    rw [hlab]
    rfl

/-- Witness for the amended C7 at a concrete origin-prefixed remote branch. -/
theorem C7_remote_origin_strip_witness :
    buildFlowBranchLabelMap [⟨"h1", "", "", 0, []⟩]
        [⟨"origin/dev", false, true, some "h1"⟩] "h1" =
      some (stripOrigin "origin/dev") :=
  C7_remote_origin_strip.2 [⟨"h1", "", "", 0, []⟩]
    ⟨"origin/dev", false, true, some "h1"⟩ "h1" rfl rfl (by decide) (by decide)

end GraphEngine
